import Mathlib

/-!
Verification of the go-tron contract-call codec and address layer.

Shallow embedding conventions:
* Go byte slices and Go strings are both modelled as `List Nat` of byte values
  (each `< 256` where the corresponding Go value is a byte); ABI type tags and
  function names, which are only ever compared and concatenated, use Lean
  `String`.
* `big.Int` values are `Int`; machine unsigned integers are `Nat` with the
  width recorded by the constructor that carries them.
* Functions that can fail return `Except`/`Option`; a Go runtime panic is
  modelled by a dedicated constructor (or `Option.none`) of the result type.
* The external hash functions (Keccak-256 used for address derivation and the
  double SHA-256 used by the base-58 check encoding) are taken as parameters:
  the repository treats them as opaque collaborators and no claim depends on
  their concrete values.
-/

namespace GoTron

instance {ε α : Type} [DecidableEq ε] [DecidableEq α] : DecidableEq (Except ε α) := fun x y =>
  match x, y with
  | .error e, .error e' =>
    if h : e = e' then isTrue (by rw [h]) else isFalse (by intro hc; cases hc; exact h rfl)
  | .ok a, .ok a' =>
    if h : a = a' then isTrue (by rw [h]) else isFalse (by intro hc; cases hc; exact h rfl)
  | .error _, .ok _ => isFalse (by intro hc; cases hc)
  | .ok _, .error _ => isFalse (by intro hc; cases hc)

/-- Big-endian positional interpretation of a digit list: the value
`big.Int.SetBytes` (base 256) or the base-58 accumulation loop of
`base58.Decode` computes. -/
def digitsToNat (base : Nat) (ds : List Nat) : Nat :=
  ds.foldl (fun a d => a * base + d) 0

/-- `big.Int.SetBytes`: a byte slice read as an unsigned big-endian integer. -/
def beNat (bs : List Nat) : Nat :=
  digitsToNat 256 bs

/-- Minimal big-endian digit expansion of `n` in the given base: the digit
list produced by the repeated div/mod loops of `big.Int.Bytes` (base 256) and
`base58.Encode` (base 58).  Empty for `n = 0`. -/
def natToDigits (base n : Nat) : List Nat :=
  if h : 2 ≤ base ∧ 0 < n then natToDigits base (n / base) ++ [n % base] else []
termination_by n
decreasing_by exact Nat.div_lt_self h.2 h.1

/-- Number of leading occurrences of the value `v`: the leading-zero-byte and
leading-'1'-character counting loops of `base58.Encode` / `base58.Decode`. -/
def leadCount (v : Nat) : List Nat → Nat
  | [] => 0
  | a :: rest => if a = v then leadCount v rest + 1 else 0

/-- `binary.Write(_, binary.BigEndian, v)` for an unsigned integer of `w`
bytes: exactly `w` big-endian bytes of `v` (the Go value always fits, so the
`% 256 ^ w` this computes is the identity there). -/
def beBytesFixed : Nat → Nat → List Nat
  | 0, _ => []
  | w + 1, v => beBytesFixed w (v / 256) ++ [v % 256]

/-- `big.Int.Bytes()` of the argument's absolute value: the minimal big-endian
magnitude bytes (empty for zero). -/
def magBytes (v : Int) : List Nat :=
  natToDigits 256 v.natAbs

/-- One output digit of Go's `encoding/hex` table "0123456789abcdef", as a
character code. -/
def hexDigit (n : Nat) : Nat :=
  if n < 10 then 48 + n else 87 + n

/-- `hex.EncodeToString`: two lowercase hex characters per byte. -/
def hexEncode : List Nat → List Nat
  | [] => []
  | b :: rest => hexDigit (b / 16) :: hexDigit (b % 16) :: hexEncode rest

/-- Value of one hex character as in `encoding/hex.fromHexChar`: digits,
lowercase and uppercase letters are accepted, anything else is invalid. -/
def hexVal (c : Nat) : Option Nat :=
  if 48 ≤ c ∧ c ≤ 57 then some (c - 48)
  else if 97 ≤ c ∧ c ≤ 102 then some (c - 87)
  else if 65 ≤ c ∧ c ≤ 70 then some (c - 55)
  else none

/-- `hex.DecodeString`: pairs of hex characters; an invalid character or an
odd length is an error (`none`). -/
def hexDecode : List Nat → Option (List Nat)
  | [] => some []
  | [_] => none
  | c1 :: c2 :: rest =>
    match hexVal c1, hexVal c2, hexDecode rest with
    | some h, some l, some bs => some ((16 * h + l) :: bs)
    | _, _, _ => none

/-- Character codes of the btcutil base-58 alphabet
"123456789ABCDEFGHJKLMNPQRSTUVWXYZabcdefghijkmnopqrstuvwxyz". -/
def b58Alphabet : List Nat :=
  [49, 50, 51, 52, 53, 54, 55, 56, 57,
   65, 66, 67, 68, 69, 70, 71, 72,
   74, 75, 76, 77, 78,
   80, 81, 82, 83, 84, 85, 86, 87, 88, 89, 90,
   97, 98, 99, 100, 101, 102, 103, 104, 105, 106, 107,
   109, 110, 111, 112, 113, 114, 115, 116, 117, 118, 119, 120, 121, 122]

/-- Index of a character in an alphabet (btcutil's `b58` reverse table):
`none` models the table's invalid marker 255. -/
def b58Lookup : List Nat → Nat → Option Nat
  | [], _ => none
  | a :: rest, c => if c = a then some 0 else (b58Lookup rest c).map (· + 1)

/-- btcutil `base58.Encode`: the base-58 digits of the big-endian integer
value, preceded by one '1' per leading zero byte. -/
def b58EncodeGo (b : List Nat) : List Nat :=
  List.replicate (leadCount 0 b) 49 ++
    (natToDigits 58 (beNat b)).map (fun d => b58Alphabet.getD d 0)

/-- One step of the btcutil `base58.Decode` accumulation loop: shift the
accumulator by the radix and add the character's alphabet index; `none` once
any character outside the alphabet has been seen. -/
def b58Step (acc : Option Nat) (c : Nat) : Option Nat :=
  match acc, b58Lookup b58Alphabet c with
  | some a, some d => some (a * 58 + d)
  | _, _ => none

/-- Accumulation loop of btcutil `base58.Decode`: `none` on any character
outside the alphabet. -/
def b58NatGo (s : List Nat) : Option Nat :=
  s.foldl b58Step (some 0)

/-- btcutil `base58.Decode`: minimal big-endian bytes of the accumulated
value, preceded by one zero byte per leading '1'; the empty slice on an
invalid character. -/
def b58DecodeGo (s : List Nat) : List Nat :=
  match b58NatGo s with
  | none => []
  | some x => List.replicate (leadCount 49 s) 0 ++ natToDigits 256 x

/-- First four bytes of the (double SHA-256) checksum hash, copied into a
zero-initialised 4-byte array exactly as btcutil's `checksum` does. -/
def checksum4 (dsha : List Nat → List Nat) (x : List Nat) : List Nat :=
  (dsha x ++ [0, 0, 0, 0]).take 4

/-- btcutil `base58.CheckEncode`: version byte, payload, 4 checksum bytes,
base-58 encoded. -/
def CheckEncode (dsha : List Nat → List Nat) (input : List Nat) (version : Nat) : List Nat :=
  b58EncodeGo ((version :: input) ++ checksum4 dsha (version :: input))

inductive B58Err
  | invalidFormat
  | checksumMismatch
deriving DecidableEq

/-- btcutil `base58.CheckDecode`: decode, require at least 5 bytes, verify
the trailing 4 checksum bytes, return payload and version byte. -/
def CheckDecode (dsha : List Nat → List Nat) (s : List Nat) : Except B58Err (List Nat × Nat) :=
  let decoded := b58DecodeGo s
  if decoded.length < 5 then .error .invalidFormat
  else if checksum4 dsha (decoded.take (decoded.length - 4)) ≠ decoded.drop (decoded.length - 4)
    then .error .checksumMismatch
  else .ok ((decoded.take (decoded.length - 4)).drop 1, decoded.headD 0)

inductive AddrErr
  | malformedInput
  | invalidLength
  | invalidPrefix
  | base58Error (e : B58Err)
deriving DecidableEq

/-- `address.FromPublicKey`: byte 0 is the network prefix `0x41`, bytes 1-20
are the last 20 of the 32 Keccak-256 hash bytes of the public key's
coordinate bytes `xy` (sha3 always yields 32 bytes, reflected by the length
hypotheses of the theorems below). -/
def FromPublicKey (keccak : List Nat → List Nat) (xy : List Nat) : List Nat :=
  0x41 :: (keccak xy).drop 12

/-- `address.FromBase16`: hex-decode, then require exactly 21 bytes. -/
def FromBase16 (s : List Nat) : Except AddrErr (List Nat) :=
  match hexDecode s with
  | none => .error .malformedInput
  | some bs => if bs.length = 21 then .ok bs else .error .invalidLength

/-- `Address.ToBase16`: hex encoding of all 21 bytes. -/
def ToBase16 (a : List Nat) : List Nat :=
  hexEncode a

/-- `address.FromBase58`: check-decode, require the version byte to be the
network prefix, then build the address from the prefix and the payload
(copied into a zero-initialised 20-byte region, as Go's `copy` does). -/
def FromBase58 (dsha : List Nat → List Nat) (s : List Nat) : Except AddrErr (List Nat) :=
  match CheckDecode dsha s with
  | .error e => .error (.base58Error e)
  | .ok (bs, check) =>
    if check ≠ 0x41 then .error .invalidPrefix
    else .ok (0x41 :: (bs ++ List.replicate 20 0).take 20)

/-- `Address.ToBase58`: check-encode bytes 1-20 under version `0x41`. -/
def ToBase58 (dsha : List Nat → List Nat) (a : List Nat) : List Nat :=
  CheckEncode dsha (a.drop 1) 0x41

/-- `abi.Value`: one parameter descriptor.  The Go field `Type` is spelled
`type` here because `Type` is reserved in Lean. -/
structure Value where
  Name : String
  type : String
  Indexed : Bool
deriving DecidableEq

/-- `abi.Function`: a callable's descriptor. -/
structure Function where
  Name : String
  Mutability : String
  Inputs : List Value
  Outputs : List Value
deriving DecidableEq

/-- `Function.Signature`: the strings.Builder loop writing the name, an
opening parenthesis, each input type tag preceded by a comma except the
first, and a closing parenthesis. -/
def Function.Signature (f : Function) : String :=
  f.Name ++ "(" ++
    (match f.Inputs with
     | [] => ""
     | v :: rest => rest.foldl (fun acc w => acc ++ "," ++ w.type) v.type) ++ ")"

/-- Spec-side rendering of "the ordered input type tags separated by commas
with no spaces", used to state the refinement claim about `Signature`. -/
def joinTags : List String → String
  | [] => ""
  | [t] => t
  | t :: rest => t ++ "," ++ joinTags rest

/-- Helper for relating the builder loop to `joinTags`: a comma before every
tag. -/
def commaTail : List String → String
  | [] => ""
  | t :: rest => "," ++ t ++ commaTail rest

/-- `Function.Payable`: mutability is exactly "payable". -/
def Function.Payable (f : Function) : Bool :=
  f.Mutability == "payable"

/-- `Function.Immutable`: mutability is "pure" or "view". -/
def Function.Immutable (f : Function) : Bool :=
  match f.Mutability with
  | "pure" => true
  | "view" => true
  | _ => false

/-- An argument passed to `Function.Encode`.  The four unsigned widths, the
21-byte address and `*big.Int` are the supported cases of the type switch;
`unsupported` stands for every other dynamic type (the `default` branch
panics). -/
inductive Arg
  | uint8 (v : Nat)
  | uint16 (v : Nat)
  | uint32 (v : Nat)
  | uint64 (v : Nat)
  | addr (a : List Nat)
  | bigInt (v : Int)
  | unsupported
deriving DecidableEq

/-- One iteration of the `Function.Encode` type switch.  `none` models a Go
runtime panic: the explicit `panic` of the default branch, and the slice
bound fault in `leftPad` when `32 - len(magnitude)` is negative. -/
def encodeArg : Arg → Option (List Nat)
  | .uint8 v => some (List.replicate 31 0 ++ beBytesFixed 1 v)
  | .uint16 v => some (List.replicate 30 0 ++ beBytesFixed 2 v)
  | .uint32 v => some (List.replicate 28 0 ++ beBytesFixed 4 v)
  | .uint64 v => some (List.replicate 24 0 ++ beBytesFixed 8 v)
  | .addr a => some (List.replicate (32 - a.length + 1) 0 ++ a.drop 1)
  | .bigInt v =>
    if (magBytes v).length ≤ 32 then
      some (List.replicate (32 - (magBytes v).length) (if v < 0 then 0xff else 0x00) ++ magBytes v)
    else none
  | .unsupported => none

/-- The `Function.Encode` loop over the argument list: concatenates one
32-byte word per argument; a panic in any iteration aborts the whole call. -/
def encodeArgs : List Arg → Option (List Nat)
  | [] => some []
  | a :: rest =>
    match encodeArg a with
    | none => none
    | some w =>
      match encodeArgs rest with
      | none => none
      | some ws => some (w ++ ws)

/-- `Function.Encode`: the receiver is unused in the source. -/
def Function.Encode (_f : Function) (args : List Arg) : Option (List Nat) :=
  encodeArgs args

/-- A value produced by `Function.Decode`. -/
inductive DecVal
  | boolV (b : Bool)
  | bytes32V (w : List Nat)
  | uint256V (n : Nat)
deriving DecidableEq

/-- Result of `Function.Decode`: a value list, the reader error (`io.EOF`)
returned when a read starts past the end of the input, or the
index-out-of-range fault of `b[alignment-1]` in the boolean branch. -/
inductive DecodeOutcome
  | ok (vals : List DecVal)
  | errRead
  | panicOOB
deriving DecidableEq

/-- `bytes.Reader.Read` into a 32-byte buffer: `io.EOF` (`none`) iff the
position is at or past the end, otherwise the number of bytes copied, which
is the minimum of 32 and what remains (no error on a short read). -/
def wordRead (len pos : Nat) : Option Nat :=
  if len ≤ pos then none else some (min 32 (len - pos))

/-- The `Function.Decode` loop.  Faithful to the source: the boolean branch
inspects `b[31]` of the whole input (not the word just read) and panics if
the input is shorter than 32 bytes; the bytes32 branch returns the fresh
word buffer (zero-filled past a short read); the uint256 branch interprets
the whole input `b`, not the word just read; unknown output types consume
nothing and produce nothing. -/
def decodeLoop (b : List Nat) : List Value → Nat → List DecVal → DecodeOutcome
  | [], _, acc => .ok acc
  | out :: rest, pos, acc =>
    if out.type = "bool" then
      match wordRead b.length pos with
      | none => .errRead
      | some n =>
        if 31 < b.length then
          decodeLoop b rest (pos + n) (acc ++ [.boolV (b.getD 31 0 != 0)])
        else .panicOOB
    else if out.type = "bytes32" then
      match wordRead b.length pos with
      | none => .errRead
      | some n =>
        decodeLoop b rest (pos + n)
          (acc ++ [.bytes32V ((b.drop pos).take 32 ++
            List.replicate (32 - ((b.drop pos).take 32).length) 0)])
    else if out.type = "uint256" then
      match wordRead b.length pos with
      | none => .errRead
      | some n => decodeLoop b rest (pos + n) (acc ++ [.uint256V (beNat b)])
    else decodeLoop b rest pos acc

/-- `Function.Decode`: run the loop over the declared outputs. -/
def Function.Decode (f : Function) (b : List Nat) : DecodeOutcome :=
  decodeLoop b f.Outputs 0 []

inductive CallErr
  | valueTransferRejected
deriving DecidableEq

/-- Observable outcome of the pre-network phase of `Client.CallContract`:
either the request construction panics inside `Function.Encode`, or the
value-transfer check returns an error, or the call proceeds to the HTTP
post with the given hex-encoded parameter, selector and endpoint. -/
inductive CallPrep
  | panicEncode
  | err (e : CallErr)
  | proceed (parameter : List Nat) (selector : String) (endpoint : String)
deriving DecidableEq

/-- `Client.CallContract` up to the network call, in source order: the
request struct literal is evaluated first (running `Function.Encode` on the
arguments), then the endpoint is selected, then the non-payable/value check
may fail, and only then is the request posted. -/
def CallContract (f : Function) (args : List Arg) (callValue : Nat) : CallPrep :=
  match encodeArgs args with
  | none => .panicEncode
  | some bs =>
    let endpoint :=
      if f.Immutable then "wallet/triggerconstantcontract" else "wallet/triggersmartcontract"
    if f.Payable = false ∧ 0 < callValue then .err .valueTransferRejected
    else .proceed (hexEncode bs) f.Signature endpoint

inductive SignErr
  | malformedInput
  | signFailed
deriving DecidableEq

/-- `tron.Transaction`, signing view: the hex identifier and the ordered
signature list (each signature a hex string, i.e. a byte list here). -/
structure Transaction where
  Id : List Nat
  Signatures : List (List Nat)
deriving DecidableEq

/-- `Transaction.Sign`: decode the identifier (failure leaves the
transaction untouched), sign the digest with the key - modelled by `sigOf`,
which may itself fail as `crypto.Sign` can - and append the hex-encoded
signature.  Returns the transaction value after the call plus the error. -/
def Transaction.Sign (sigOf : List Nat → Option (List Nat)) (tx : Transaction) :
    Transaction × Option SignErr :=
  match hexDecode tx.Id with
  | none => (tx, some .malformedInput)
  | some hash =>
    match sigOf hash with
    | none => (tx, some .signFailed)
    | some sig => ({ tx with Signatures := tx.Signatures ++ [hexEncode sig] }, none)

/-! ### Positional arithmetic lemmas -/

theorem digitsToNat_append (base : Nat) (ds : List Nat) (d : Nat) :
    digitsToNat base (ds ++ [d]) = digitsToNat base ds * base + d := by
  simp [digitsToNat, List.foldl_append]

theorem foldl_digitsToNat (base : Nat) (ds : List Nat) (a : Nat) :
    ds.foldl (fun x d => x * base + d) a = a * base ^ ds.length + digitsToNat base ds := by
  induction ds generalizing a with
  | nil => simp [digitsToNat]
  | cons d t ih =>
    have h1 := ih (a * base + d)
    have h2 : digitsToNat base (d :: t) = d * base ^ t.length + digitsToNat base t := by
      have := ih d
      simp only [digitsToNat, List.foldl_cons]
      simpa using this
    simp only [List.foldl_cons, List.length_cons, h1, h2, pow_succ]
    ring

theorem digitsToNat_cons (base d : Nat) (ds : List Nat) :
    digitsToNat base (d :: ds) = d * base ^ ds.length + digitsToNat base ds := by
  have := foldl_digitsToNat base ds d
  simp only [digitsToNat, List.foldl_cons]
  simpa using this

theorem digitsToNat_replicate_zero (base z : Nat) (ds : List Nat) :
    digitsToNat base (List.replicate z 0 ++ ds) = digitsToNat base ds := by
  induction z with
  | zero => simp
  | succ z ih =>
    rw [List.replicate_succ, List.cons_append, digitsToNat_cons, ih]
    simp

theorem digitsToNat_pos (base : Nat) (hb : 2 ≤ base) (d : Nat) (ds : List Nat) (hd : 0 < d) :
    0 < digitsToNat base (d :: ds) := by
  rw [digitsToNat_cons]
  have h : 0 < base ^ ds.length := Nat.pos_pow_of_pos ds.length (by omega)
  have := Nat.mul_pos hd h
  omega

theorem natToDigits_zero (base : Nat) : natToDigits base 0 = [] := by
  rw [natToDigits]
  simp

theorem natToDigits_eq_nil_iff (base n : Nat) (hb : 2 ≤ base) :
    natToDigits base n = [] ↔ n = 0 := by
  constructor
  · intro h
    by_contra hn
    rw [natToDigits] at h
    rw [dif_pos ⟨hb, by omega⟩] at h
    simp at h
  · intro h
    rw [h, natToDigits_zero]

theorem digitsToNat_natToDigits (base : Nat) (hb : 2 ≤ base) (n : Nat) :
    digitsToNat base (natToDigits base n) = n := by
  induction n using Nat.strong_induction_on with
  | _ n ih =>
    rw [natToDigits]
    by_cases h : 2 ≤ base ∧ 0 < n
    · rw [dif_pos h, digitsToNat_append, ih _ (Nat.div_lt_self h.2 h.1), Nat.mul_comm]
      exact Nat.div_add_mod n base
    · rw [dif_neg h]
      simp [digitsToNat]
      omega

theorem lt_pow_length_natToDigits (base : Nat) (hb : 2 ≤ base) (n : Nat) :
    n < base ^ (natToDigits base n).length := by
  induction n using Nat.strong_induction_on with
  | _ n ih =>
    rw [natToDigits]
    by_cases h : 2 ≤ base ∧ 0 < n
    · rw [dif_pos h]
      have hb0 : 0 < base := by omega
      have ihd := ih (n / base) (Nat.div_lt_self h.2 h.1)
      have h1 : n < base * (n / base) + base := by
        conv_lhs => rw [← Nat.div_add_mod n base]
        exact Nat.add_lt_add_left (Nat.mod_lt n hb0) _
      have h2 : base * (n / base) + base = base * (n / base + 1) := by ring
      have h3 : n / base + 1 ≤ base ^ (natToDigits base (n / base)).length := ihd
      have h4 : base * (n / base + 1) ≤ base * base ^ (natToDigits base (n / base)).length :=
        Nat.mul_le_mul_left base h3
      simp only [List.length_append, List.length_cons, List.length_nil, pow_succ]
      calc n < base * (n / base + 1) := by omega
        _ ≤ base * base ^ (natToDigits base (n / base)).length := h4
        _ = base ^ (natToDigits base (n / base)).length * base := by ring
    · rw [dif_neg h]
      have : n = 0 := by omega
      simp [this]

theorem natToDigits_lt_base (base : Nat) (hb : 2 ≤ base) (n : Nat) :
    ∀ d ∈ natToDigits base n, d < base := by
  induction n using Nat.strong_induction_on with
  | _ n ih =>
    rw [natToDigits]
    by_cases h : 2 ≤ base ∧ 0 < n
    · rw [dif_pos h]
      intro d hd
      rcases List.mem_append.mp hd with hmem | hmem
      · exact ih (n / base) (Nat.div_lt_self h.2 h.1) d hmem
      · have : d = n % base := by simpa using hmem
        rw [this]
        exact Nat.mod_lt n (by omega)
    · rw [dif_neg h]
      intro d hd
      simp at hd

theorem natToDigits_head_pos (base : Nat) (hb : 2 ≤ base) :
    ∀ n, 0 < n → ∀ d, (natToDigits base n).head? = some d → 0 < d := by
  intro n
  induction n using Nat.strong_induction_on with
  | _ n ih =>
    intro hn d hd
    rw [natToDigits, dif_pos ⟨hb, hn⟩] at hd
    rcases hq : natToDigits base (n / base) with _ | ⟨e, es⟩
    · rw [hq] at hd
      simp at hd
      have hdiv : n / base = 0 := (natToDigits_eq_nil_iff base _ hb).mp hq
      have : n % base = n := by
        rw [Nat.mod_eq_of_lt]
        exact (Nat.div_eq_zero_iff (by omega)).mp hdiv
      omega
    · rw [hq] at hd
      simp at hd
      have hdivpos : 0 < n / base := by
        by_contra hz
        have : n / base = 0 := Nat.le_zero.mp (Nat.not_lt.mp hz)
        rw [this, natToDigits_zero] at hq
        simp at hq
      have := ih (n / base) (Nat.div_lt_self hn (by omega)) hdivpos d
      rw [hq] at this
      simp at this
      omega

theorem natToDigits_digitsToNat (base : Nat) (hb : 2 ≤ base) (ds : List Nat)
    (hlt : ∀ d ∈ ds, d < base) (hhead : ∀ d, ds.head? = some d → 0 < d) :
    natToDigits base (digitsToNat base ds) = ds := by
  induction ds using List.reverseRecOn with
  | nil => simp [digitsToNat, natToDigits_zero]
  | append_singleton ds d ih =>
    have hd : d < base := hlt d (by simp)
    rw [digitsToNat_append]
    rcases ds with _ | ⟨e, es⟩
    · have hdpos : 0 < d := hhead d (by simp)
      simp only [digitsToNat, List.foldl_nil, Nat.zero_mul, Nat.zero_add]
      rw [natToDigits, dif_pos ⟨hb, hdpos⟩, Nat.div_eq_of_lt hd, natToDigits_zero,
        Nat.mod_eq_of_lt hd]
    · have hepos : 0 < e := hhead e (by simp)
      have hS : 0 < digitsToNat base (e :: es) := digitsToNat_pos base hb e es hepos
      have hv : 0 < digitsToNat base (e :: es) * base + d := by
        have : 0 < base := by omega
        have := Nat.mul_pos hS this
        omega
      rw [natToDigits, dif_pos ⟨hb, hv⟩]
      have hdiv : (digitsToNat base (e :: es) * base + d) / base = digitsToNat base (e :: es) := by
        rw [Nat.add_comm, Nat.add_mul_div_right _ _ (show 0 < base by omega),
          Nat.div_eq_of_lt hd]
        omega
      have hmod : (digitsToNat base (e :: es) * base + d) % base = d := by
        rw [Nat.add_comm, Nat.add_mul_mod_self_right, Nat.mod_eq_of_lt hd]
      rw [hdiv, hmod]
      have hih : natToDigits base (digitsToNat base (e :: es)) = e :: es := by
        refine ih ?_ ?_
        · intro x hx
          apply hlt
          simp only [List.cons_append, List.mem_cons, List.mem_append] at hx ⊢
          tauto
        · intro x hx
          apply hhead
          simp only [List.cons_append, List.head?_cons] at hx ⊢
          exact hx
      rw [hih]

theorem natToDigits_length_le (base : Nat) (hb : 2 ≤ base) (n k : Nat) (h : n < base ^ k) :
    (natToDigits base n).length ≤ k := by
  induction n using Nat.strong_induction_on generalizing k with
  | _ n ih =>
    rw [natToDigits]
    by_cases hc : 2 ≤ base ∧ 0 < n
    · rw [dif_pos hc]
      rcases k with _ | k
      · simp at h
        omega
      · have hdiv : n / base < base ^ k := by
          rw [Nat.div_lt_iff_lt_mul (show 0 < base by omega)]
          calc n < base ^ (k + 1) := h
            _ = base ^ k * base := pow_succ base k
        have := ih (n / base) (Nat.div_lt_self hc.2 (by omega)) k hdiv
        simp only [List.length_append, List.length_cons, List.length_nil]
        omega
    · rw [dif_neg hc]
      simp

/-! ### Leading-value decomposition -/

theorem leadCount_replicate_append (v z : Nat) (l : List Nat) :
    leadCount v (List.replicate z v ++ l) = z + leadCount v l := by
  induction z with
  | zero => simp
  | succ z ih =>
    rw [List.replicate_succ, List.cons_append]
    simp only [leadCount, eq_self_iff_true, if_true, ih]
    omega

theorem leadCount_eq_zero (v : Nat) (l : List Nat)
    (h : ∀ d, l.head? = some d → d ≠ v) : leadCount v l = 0 := by
  cases l with
  | nil => rfl
  | cons a t =>
    simp only [leadCount]
    rw [if_neg (h a (by simp))]

theorem leadCount_decomp (v : Nat) (bs : List Nat) :
    bs = List.replicate (leadCount v bs) v ++ bs.drop (leadCount v bs) ∧
      (∀ d, (bs.drop (leadCount v bs)).head? = some d → d ≠ v) := by
  induction bs with
  | nil => simp [leadCount]
  | cons a t ih =>
    by_cases h : a = v
    · subst h
      have hlc : leadCount a (a :: t) = leadCount a t + 1 := by simp [leadCount]
      rw [hlc]
      constructor
      · rw [List.replicate_succ, List.cons_append, List.drop_succ_cons]
        exact congrArg (a :: ·) ih.1
      · simp only [List.drop_succ_cons]
        exact ih.2
    · simp only [leadCount, if_neg h]
      constructor
      · simp
      · intro d hd
        simp at hd
        omega

/-! ### Fixed-width big-endian bytes -/

theorem length_beBytesFixed (w v : Nat) : (beBytesFixed w v).length = w := by
  induction w generalizing v with
  | zero => rfl
  | succ w ih => simp [beBytesFixed, ih]

theorem beNat_beBytesFixed (w v : Nat) : beNat (beBytesFixed w v) = v % 256 ^ w := by
  induction w generalizing v with
  | zero => simp [beBytesFixed, beNat, digitsToNat, Nat.mod_one]
  | succ w ih =>
    simp only [beBytesFixed, beNat] at *
    rw [digitsToNat_append, ih (v / 256)]
    have h1 : 256 ^ (w + 1) = 256 * 256 ^ w := by ring
    rw [h1, Nat.mod_mul]
    omega

theorem beBytesFixed_lt (w v : Nat) : ∀ d ∈ beBytesFixed w v, d < 256 := by
  induction w generalizing v with
  | zero => simp [beBytesFixed]
  | succ w ih =>
    intro d hd
    simp only [beBytesFixed] at hd
    rcases List.mem_append.mp hd with h | h
    · exact ih (v / 256) d h
    · have : d = v % 256 := by simpa using h
      rw [this]
      exact Nat.mod_lt v (by omega)

/-! ### Hex codec -/

theorem hexVal_hexDigit (n : Nat) (h : n < 16) : hexVal (hexDigit n) = some n := by
  interval_cases n <;> rfl

theorem hexDecode_hexEncode (bs : List Nat) (h : ∀ b ∈ bs, b < 256) :
    hexDecode (hexEncode bs) = some bs := by
  induction bs with
  | nil => rfl
  | cons b t ih =>
    have hb : b < 256 := h b (by simp)
    have hhi : b / 16 < 16 := by omega
    have hlo : b % 16 < 16 := Nat.mod_lt b (by omega)
    simp only [hexEncode, hexDecode, hexVal_hexDigit _ hhi, hexVal_hexDigit _ hlo,
      ih (fun x hx => h x (by simp [hx]))]
    have : 16 * (b / 16) + b % 16 = b := by omega
    rw [this]

theorem hexEncode_lt (bs : List Nat) (hb : ∀ b ∈ bs, b < 256) : ∀ c ∈ hexEncode bs, c < 256 := by
  induction bs with
  | nil => simp [hexEncode]
  | cons b t ih =>
    have h256 : b < 256 := hb b (by simp)
    intro c hc
    simp only [hexEncode, List.mem_cons] at hc
    rcases hc with h | h | h
    · rw [h]
      unfold hexDigit
      split <;> omega
    · rw [h]
      unfold hexDigit
      have := Nat.mod_lt b (show 0 < 16 by omega)
      split <;> omega
    · exact ih (fun x hx => hb x (by simp [hx])) c h

/-! ### Base-58 codec round-trip -/

theorem b58Lookup_getD : ∀ d, d < 58 → b58Lookup b58Alphabet (b58Alphabet.getD d 0) = some d := by
  decide

theorem b58Alphabet_getD_ne_49 : ∀ d, d < 58 → 0 < d → b58Alphabet.getD d 0 ≠ 49 := by
  decide

theorem b58Step_alph (a d : Nat) (hd : d < 58) :
    b58Step (some a) (b58Alphabet.getD d 0) = some (a * 58 + d) := by
  unfold b58Step
  rw [b58Lookup_getD d hd]

theorem b58NatGo_foldl (ds : List Nat) (hds : ∀ d ∈ ds, d < 58) :
    ∀ a, (ds.map (fun d => b58Alphabet.getD d 0)).foldl b58Step (some a)
      = some (ds.foldl (fun x d => x * 58 + d) a) := by
  induction ds with
  | nil => intro a; rfl
  | cons d t ih =>
    intro a
    have hd : d < 58 := hds d (by simp)
    simp only [List.map_cons, List.foldl_cons, b58Step_alph a d hd]
    exact ih (fun x hx => hds x (by simp [hx])) (a * 58 + d)

theorem b58NatGo_encode (z : Nat) (ds : List Nat) (hds : ∀ d ∈ ds, d < 58) :
    b58NatGo (List.replicate z 49 ++ ds.map (fun d => b58Alphabet.getD d 0))
      = some (digitsToNat 58 ds) := by
  unfold b58NatGo
  rw [List.foldl_append]
  have h1 : (List.replicate z 49).foldl b58Step (some 0) = some 0 := by
    induction z with
    | zero => rfl
    | succ z ih =>
      rw [List.replicate_succ, List.foldl_cons]
      have : b58Step (some 0) 49 = some 0 := by decide
      rw [this, ih]
  rw [h1, b58NatGo_foldl ds hds 0]
  rfl

theorem leadCount_49_chars (ds : List Nat) (hds : ∀ d ∈ ds, d < 58)
    (hhead : ∀ d, ds.head? = some d → 0 < d) :
    leadCount 49 (ds.map (fun d => b58Alphabet.getD d 0)) = 0 := by
  cases ds with
  | nil => rfl
  | cons d t =>
    apply leadCount_eq_zero
    intro x hx
    simp only [List.map_cons, List.head?_cons, Option.some_inj] at hx
    have hd58 : d < 58 := hds d (by simp)
    have hdpos : 0 < d := hhead d rfl
    rw [← hx]
    exact b58Alphabet_getD_ne_49 d hd58 hdpos

theorem b58_roundtrip (bs : List Nat) (hb : ∀ b ∈ bs, b < 256) :
    b58DecodeGo (b58EncodeGo bs) = bs := by
  obtain ⟨hdec, hhead⟩ := leadCount_decomp 0 bs
  have hval : beNat bs = digitsToNat 256 (bs.drop (leadCount 0 bs)) := by
    show digitsToNat 256 bs = _
    conv_lhs => rw [hdec]
    exact digitsToNat_replicate_zero 256 _ _
  have hds58 : ∀ d ∈ natToDigits 58 (beNat bs), d < 58 :=
    natToDigits_lt_base 58 (by omega) (beNat bs)
  have hdshead : ∀ d, (natToDigits 58 (beNat bs)).head? = some d → 0 < d := by
    intro d hd
    rcases Nat.eq_zero_or_pos (beNat bs) with h0 | hpos
    · rw [h0, natToDigits_zero] at hd
      simp at hd
    · exact natToDigits_head_pos 58 (by omega) (beNat bs) hpos d hd
  have henc : b58EncodeGo bs
      = List.replicate (leadCount 0 bs) 49 ++
        (natToDigits 58 (beNat bs)).map (fun d => b58Alphabet.getD d 0) := rfl
  have hnat : b58NatGo (b58EncodeGo bs) = some (beNat bs) := by
    rw [henc, b58NatGo_encode _ _ hds58, digitsToNat_natToDigits 58 (by omega) (beNat bs)]
  have hlead : leadCount 49 (b58EncodeGo bs) = leadCount 0 bs := by
    rw [henc, leadCount_replicate_append, leadCount_49_chars _ hds58 hdshead]
    omega
  have ht256 : ∀ d ∈ bs.drop (leadCount 0 bs), d < 256 :=
    fun d hd => hb d (List.drop_subset _ _ hd)
  have hthead : ∀ d, (bs.drop (leadCount 0 bs)).head? = some d → 0 < d := by
    intro d hd
    have := hhead d hd
    omega
  unfold b58DecodeGo
  simp only [hnat, hlead]
  rw [hval, natToDigits_digitsToNat 256 (by omega) _ ht256 hthead]
  exact hdec.symm

/-! ### Base-58 check round-trip -/

theorem checksum4_length (dsha : List Nat → List Nat) (x : List Nat) :
    (checksum4 dsha x).length = 4 := by
  unfold checksum4
  rw [List.length_take, List.length_append]
  simp

theorem checksum4_lt (dsha : List Nat → List Nat) (hd : ∀ x, ∀ b ∈ dsha x, b < 256)
    (x : List Nat) : ∀ b ∈ checksum4 dsha x, b < 256 := by
  intro b hb
  have hmem := List.take_subset 4 _ hb
  rcases List.mem_append.mp hmem with h | h
  · exact hd x b h
  · have : b = 0 := by simpa using h
    omega

theorem checkDecode_checkEncode (dsha : List Nat → List Nat)
    (hd : ∀ x, ∀ b ∈ dsha x, b < 256)
    (input : List Nat) (hi : ∀ b ∈ input, b < 256) (version : Nat) (hv : version < 256) :
    CheckDecode dsha (CheckEncode dsha input version) = .ok (input, version) := by
  have hfull : ∀ b ∈ (version :: input) ++ checksum4 dsha (version :: input), b < 256 := by
    intro b hb
    rcases List.mem_append.mp hb with h | h
    · rcases List.mem_cons.mp h with h' | h'
      · omega
      · exact hi b h'
    · exact checksum4_lt dsha hd _ b h
  have hrt := b58_roundtrip _ hfull
  have hlen : ((version :: input) ++ checksum4 dsha (version :: input)).length
      = input.length + 5 := by
    rw [List.length_append, List.length_cons, checksum4_length]
  have hbody : (version :: input).length = input.length + 5 - 4 := by
    simp
  unfold CheckDecode CheckEncode
  simp only [hrt, hlen, List.take_left' hbody, List.drop_left' hbody]
  rw [if_neg (by omega), if_neg (by simp)]
  rfl

/-! ### Address layer -/

theorem fromPublicKey_length (keccak : List Nat → List Nat) (xy : List Nat)
    (hk : (keccak xy).length = 32) : (FromPublicKey keccak xy).length = 21 := by
  unfold FromPublicKey
  rw [List.length_cons, List.length_drop, hk]

theorem fromPublicKey_lt (keccak : List Nat → List Nat) (xy : List Nat)
    (hkb : ∀ b ∈ keccak xy, b < 256) : ∀ b ∈ FromPublicKey keccak xy, b < 256 := by
  intro b hb
  unfold FromPublicKey at hb
  rcases List.mem_cons.mp hb with h | h
  · omega
  · exact hkb b (List.drop_subset _ _ h)

theorem fromBase16_toBase16 (a : List Nat) (ha : a.length = 21)
    (hab : ∀ b ∈ a, b < 256) : FromBase16 (ToBase16 a) = .ok a := by
  unfold FromBase16 ToBase16
  rw [hexDecode_hexEncode a hab]
  simp [ha]

theorem fromBase58_ok (dsha : List Nat → List Nat) (s bs : List Nat) (check : Nat)
    (h : CheckDecode dsha s = .ok (bs, check)) :
    FromBase58 dsha s = if check ≠ 0x41 then .error .invalidPrefix
      else .ok (0x41 :: (bs ++ List.replicate 20 0).take 20) := by
  unfold FromBase58
  rw [h]

theorem fromBase58_toBase58 (dsha : List Nat → List Nat)
    (hd : ∀ x, ∀ b ∈ dsha x, b < 256) (a : List Nat) (ha : a.length = 21)
    (hab : ∀ b ∈ a, b < 256) (hpfx : a.head? = some 0x41) :
    FromBase58 dsha (ToBase58 dsha a) = .ok a := by
  have htail : ∀ b ∈ a.drop 1, b < 256 := fun b hb => hab b (List.drop_subset _ _ hb)
  unfold ToBase58
  rw [fromBase58_ok dsha _ (a.drop 1) 0x41
    (checkDecode_checkEncode dsha hd (a.drop 1) htail 0x41 (by omega))]
  rw [if_neg (by simp)]
  have hlen20 : (a.drop 1).length = 20 := by
    rw [List.length_drop, ha]
  have htake : ((a.drop 1) ++ List.replicate 20 0).take 20 = a.drop 1 :=
    List.take_left' hlen20
  rw [htake]
  rcases a with _ | ⟨x, t⟩
  · simp at ha
  · have : x = 0x41 := by simpa using hpfx
    rw [this]
    simp

/-! ### Encode/decode helper lemmas -/

theorem decode_uint256_single (wd : List Nat) (h : wd.length = 32) :
    Function.Decode ⟨"", "", [], [⟨"", "uint256", false⟩]⟩ wd = .ok [.uint256V (beNat wd)] := by
  unfold Function.Decode decodeLoop
  simp [wordRead, h, decodeLoop]

theorem natToDigits_of_lt (base n : Nat) (hb : 2 ≤ base) (hn : 0 < n) (hlt : n < base) :
    natToDigits base n = [n] := by
  rw [natToDigits, dif_pos ⟨hb, hn⟩, Nat.div_eq_of_lt hlt, natToDigits_zero,
    Nat.mod_eq_of_lt hlt]
  rfl

theorem encodeArgs_single (a : Arg) (w : List Nat) (h : encodeArg a = some w) :
    encodeArgs [a] = some w := by
  simp [encodeArgs, h]

theorem encodeArgs_append_none (pre post : List Arg) (a : Arg) (ha : encodeArg a = none) :
    encodeArgs (pre ++ a :: post) = none := by
  induction pre with
  | nil => simp only [List.nil_append, encodeArgs, ha]
  | cons x t ih =>
    cases hx : encodeArg x with
    | none => simp [encodeArgs, hx]
    | some w => simp [encodeArgs, hx, ih]

theorem callContract_some (f : Function) (args : List Arg) (v : Nat) (bs : List Nat)
    (he : encodeArgs args = some bs) :
    CallContract f args v
      = if f.Payable = false ∧ 0 < v then .err .valueTransferRejected
        else .proceed (hexEncode bs) f.Signature
          (if f.Immutable then "wallet/triggerconstantcontract"
           else "wallet/triggersmartcontract") := by
  unfold CallContract
  rw [he]

theorem foldl_commaTail (l : List Value) : ∀ a : String,
    l.foldl (fun acc w => acc ++ "," ++ w.type) a = a ++ commaTail (l.map fun v => v.type) := by
  induction l with
  | nil =>
    intro a
    simp only [List.foldl_nil, List.map_nil, commaTail]
    rw [String.append_empty]
  | cons v t ih =>
    intro a
    simp only [List.foldl_cons, List.map_cons, commaTail, ih (a ++ "," ++ v.type)]
    rw [String.append_assoc, String.append_assoc,
      ← String.append_assoc "," v.type (commaTail (t.map fun v => v.type))]

theorem joinTags_cons : ∀ (ts : List String) (t : String), joinTags (t :: ts) = t ++ commaTail ts := by
  intro ts
  induction ts with
  | nil =>
    intro t
    show t = t ++ ""
    rw [String.append_empty]
  | cons s r ih =>
    intro t
    show t ++ "," ++ joinTags (s :: r) = t ++ ("," ++ s ++ commaTail r)
    rw [ih s, ← String.append_assoc t ("," ++ s) (commaTail r), ← String.append_assoc t "," s,
      ← String.append_assoc (t ++ ",") s (commaTail r)]

/-! ### Claim theorems -/

/-- C1 (counterexample): the claim "no argument byte-encoding is performed
before the failure is signalled" is false on the code: `CallContract` builds
the request - running `Function.Encode` - before the payable check, so a
non-payable call with value 1 and an unsupported argument dies with the
encoder's panic instead of failing with `ValueTransferRejected`. -/
theorem C1_counterexample :
    CallContract ⟨"burn", "nonpayable", [], []⟩ [.unsupported] 1 ≠ .err .valueTransferRejected
    ∧ CallContract ⟨"burn", "nonpayable", [], []⟩ [.unsupported] 1 = .panicEncode := by
  decide

/-- C1 (amended): on a non-payable function with positive call value,
whenever argument encoding completes (it is performed first), `CallContract`
fails with `ValueTransferRejected` before any network request is issued. -/
theorem C1_value_transfer_rejected (f : Function) (args : List Arg) (v : Nat) (bs : List Nat)
    (hp : f.Payable = false) (hv : 0 < v) (he : encodeArgs args = some bs) :
    CallContract f args v = .err .valueTransferRejected := by
  rw [callContract_some f args v bs he, if_pos ⟨hp, hv⟩]

/-- C1 witness: concrete instance of the amended claim. -/
theorem C1_witness :
    (⟨"burn", "nonpayable", [], []⟩ : Function).Payable = false ∧ 0 < 1
    ∧ encodeArgs [] = some []
    ∧ CallContract ⟨"burn", "nonpayable", [], []⟩ [] 1 = .err .valueTransferRejected :=
  ⟨by decide, by decide, rfl,
    C1_value_transfer_rejected ⟨"burn", "nonpayable", [], []⟩ [] 1 [] (by decide) (by decide) rfl⟩

/-- C2 (code evaluation at the failing input): with one declared `uint256`
output and only 16 bytes of input, `Function.Decode` succeeds and returns a
value (the reader reports no error on a short read), instead of failing as
the claim requires. -/
theorem C2_short_input_succeeds :
    Function.Decode ⟨"", "", [], [⟨"", "uint256", false⟩]⟩ (List.replicate 16 1)
      = .ok [.uint256V ((2 ^ 128 - 1) / 255)] := by
  decide

/-- C3 (code evaluation at the failing input): with one declared `uint256`
output and 64 bytes of input, the produced value is the integer of the whole
input (`2 ^ 256 + 2`), not of the single 32-byte word consumed for that
output (whose value is 1): the uint256 branch reads `b`, not the word
buffer. -/
theorem C3_whole_input_decoded :
    Function.Decode ⟨"", "", [], [⟨"", "uint256", false⟩]⟩
        (List.replicate 31 0 ++ [1] ++ (List.replicate 31 0 ++ [2]))
      = .ok [.uint256V (2 ^ 256 + 2)]
    ∧ beNat ((List.replicate 31 0 ++ [1] ++ (List.replicate 31 0 ++ [2])).take 32) = 1
    ∧ (2 ^ 256 + 2 : Nat) ≠ 1 := by
  decide

/-- C4 (code evaluation at the failing input): with outputs `[bool, bool]`
and 64 bytes whose first word ends in 0 and second word ends in 1, both
decoded booleans are false - the boolean branch always inspects byte 31 of
the whole input, never the word consumed for the i-th output. -/
theorem C4_bool_reads_first_word :
    Function.Decode ⟨"", "", [], [⟨"", "bool", false⟩, ⟨"", "bool", false⟩]⟩
        (List.replicate 31 0 ++ [0] ++ (List.replicate 31 0 ++ [1]))
      = .ok [.boolV false, .boolV false]
    ∧ (List.replicate 31 0 ++ [0] ++ (List.replicate 31 0 ++ [1])).getD 63 0 = 1 := by
  decide

/-- C5 (counterexample): `Decode(Encode(v)) == v` fails for a 21-byte
address: decoding the encoded address word against the declared output type
"address" yields no value at all (the decode switch has no address case and
silently skips the output), so the address is not returned. -/
theorem C5_counterexample :
    Function.Encode ⟨"", "", [], []⟩ [.addr (0x41 :: List.replicate 20 2)]
      = some (List.replicate 12 0 ++ List.replicate 20 2)
    ∧ Function.Decode ⟨"", "", [], [⟨"", "address", false⟩]⟩
        (List.replicate 12 0 ++ List.replicate 20 2) = .ok [] := by
  decide

/-- C5 (amended): the encode/decode round-trip holds at the value level
through the `uint256` output type: an encoded unsigned 64-bit value (zero
and the maximum included) decodes back to the same number, a non-negative
big integer below `2 ^ 256` decodes back to the same number, and an encoded
21-byte address decodes to the big-endian integer of its 20-byte payload
(its bytes 1-20; no address-typed decode exists). -/
theorem C5_roundtrip_uint256 :
    (∀ v : Nat, v < 2 ^ 64 → ∃ w, encodeArgs [.uint64 v] = some w ∧
      Function.Decode ⟨"", "", [], [⟨"", "uint256", false⟩]⟩ w = .ok [.uint256V v])
    ∧ (∀ v : Int, 0 ≤ v → v.natAbs < 2 ^ 256 → ∃ w, encodeArgs [.bigInt v] = some w ∧
      Function.Decode ⟨"", "", [], [⟨"", "uint256", false⟩]⟩ w = .ok [.uint256V v.natAbs])
    ∧ (∀ a : List Nat, a.length = 21 → ∃ w, encodeArgs [.addr a] = some w ∧
      Function.Decode ⟨"", "", [], [⟨"", "uint256", false⟩]⟩ w = .ok [.uint256V (beNat (a.drop 1))]) := by
  refine ⟨?_, ?_, ?_⟩
  · intro v hv
    refine ⟨List.replicate 24 0 ++ beBytesFixed 8 v, by simp [encodeArgs, encodeArg], ?_⟩
    have hlen : (List.replicate 24 0 ++ beBytesFixed 8 v).length = 32 := by
      rw [List.length_append, List.length_replicate, length_beBytesFixed]
    rw [decode_uint256_single _ hlen]
    have hval : beNat (List.replicate 24 0 ++ beBytesFixed 8 v) = v := by
      show digitsToNat 256 _ = v
      rw [digitsToNat_replicate_zero]
      have h8 := beNat_beBytesFixed 8 v
      rw [show beNat (beBytesFixed 8 v) = digitsToNat 256 (beBytesFixed 8 v) from rfl] at h8
      rw [h8, Nat.mod_eq_of_lt]
      calc v < 2 ^ 64 := hv
        _ = 256 ^ 8 := by norm_num
    rw [hval]
  · intro v hv0 hvlt
    have hlen : (magBytes v).length ≤ 32 := by
      unfold magBytes
      apply natToDigits_length_le 256 (by omega)
      calc v.natAbs < 2 ^ 256 := hvlt
        _ = 256 ^ 32 := by norm_num
    have he : encodeArg (.bigInt v) = some (List.replicate (32 - (magBytes v).length) 0 ++ magBytes v) := by
      simp only [encodeArg]
      rw [if_pos hlen, if_neg (by omega)]
    refine ⟨List.replicate (32 - (magBytes v).length) 0 ++ magBytes v, encodeArgs_single _ _ he, ?_⟩
    have hl32 : (List.replicate (32 - (magBytes v).length) 0 ++ magBytes v).length = 32 := by
      rw [List.length_append, List.length_replicate]
      omega
    rw [decode_uint256_single _ hl32]
    have hval : beNat (List.replicate (32 - (magBytes v).length) 0 ++ magBytes v) = v.natAbs := by
      show digitsToNat 256 _ = _
      rw [digitsToNat_replicate_zero]
      exact digitsToNat_natToDigits 256 (by omega) v.natAbs
    rw [hval]
  · intro a ha
    refine ⟨List.replicate (32 - a.length + 1) 0 ++ a.drop 1, by simp [encodeArgs, encodeArg], ?_⟩
    have hl32 : (List.replicate (32 - a.length + 1) 0 ++ a.drop 1).length = 32 := by
      rw [List.length_append, List.length_replicate, List.length_drop, ha]
    rw [decode_uint256_single _ hl32]
    have hval : beNat (List.replicate (32 - a.length + 1) 0 ++ a.drop 1) = beNat (a.drop 1) :=
      digitsToNat_replicate_zero 256 _ _
    rw [hval]

/-- C5 witness: concrete instances of the amended claim for zero, the
maximum unsigned 64-bit value, a non-negative big integer and a concrete
address. -/
theorem C5_witness :
    (∃ w, encodeArgs [.uint64 0] = some w ∧
      Function.Decode ⟨"", "", [], [⟨"", "uint256", false⟩]⟩ w = .ok [.uint256V 0])
    ∧ (∃ w, encodeArgs [.uint64 (2 ^ 64 - 1)] = some w ∧
      Function.Decode ⟨"", "", [], [⟨"", "uint256", false⟩]⟩ w = .ok [.uint256V (2 ^ 64 - 1)])
    ∧ (∃ w, encodeArgs [.bigInt 5] = some w ∧
      Function.Decode ⟨"", "", [], [⟨"", "uint256", false⟩]⟩ w = .ok [.uint256V (5 : Int).natAbs])
    ∧ (∃ w, encodeArgs [.addr (0x41 :: List.replicate 20 3)] = some w ∧
      Function.Decode ⟨"", "", [], [⟨"", "uint256", false⟩]⟩ w
        = .ok [.uint256V (beNat ((0x41 :: List.replicate 20 3).drop 1))]) :=
  ⟨C5_roundtrip_uint256.1 0 (by decide), C5_roundtrip_uint256.1 (2 ^ 64 - 1) (by norm_num),
    C5_roundtrip_uint256.2.1 5 (by decide) (by norm_num),
    C5_roundtrip_uint256.2.2 (0x41 :: List.replicate 20 3) (by decide)⟩

/-- C6: for every public key (given sha3's 32-byte Keccak output), the
derived address hex round-trips through `FromBase16`, base-58 round-trips
through `FromBase58`, and byte 0 is the network prefix `0x41`. -/
theorem C6_address_roundtrip (keccak dsha : List Nat → List Nat) (xy : List Nat)
    (hk : (keccak xy).length = 32) (hkb : ∀ b ∈ keccak xy, b < 256)
    (hd : ∀ x, ∀ b ∈ dsha x, b < 256) :
    FromBase16 (ToBase16 (FromPublicKey keccak xy)) = .ok (FromPublicKey keccak xy)
    ∧ FromBase58 dsha (ToBase58 dsha (FromPublicKey keccak xy)) = .ok (FromPublicKey keccak xy)
    ∧ (FromPublicKey keccak xy).head? = some 0x41 := by
  refine ⟨?_, ?_, rfl⟩
  · exact fromBase16_toBase16 _ (fromPublicKey_length _ _ hk) (fromPublicKey_lt _ _ hkb)
  · exact fromBase58_toBase58 dsha hd _ (fromPublicKey_length _ _ hk)
      (fromPublicKey_lt _ _ hkb) rfl

/-- C6 witness: concrete hash stand-ins satisfying the byte-size side
conditions. -/
theorem C6_witness :
    ((fun _ : List Nat => List.replicate 32 5) [1, 2, 3]).length = 32
    ∧ FromBase16 (ToBase16 (FromPublicKey (fun _ => List.replicate 32 5) [1, 2, 3]))
        = .ok (FromPublicKey (fun _ => List.replicate 32 5) [1, 2, 3])
    ∧ FromBase58 (fun _ => [9, 8, 7, 6])
        (ToBase58 (fun _ => [9, 8, 7, 6]) (FromPublicKey (fun _ => List.replicate 32 5) [1, 2, 3]))
        = .ok (FromPublicKey (fun _ => List.replicate 32 5) [1, 2, 3])
    ∧ (FromPublicKey (fun _ => List.replicate 32 5) [1, 2, 3]).head? = some 0x41 := by
  have h := C6_address_roundtrip (fun _ => List.replicate 32 5) (fun _ => [9, 8, 7, 6]) [1, 2, 3]
    (by decide) (by decide) (by intro x b hb; simp at hb; omega)
  exact ⟨by decide, h.1, h.2.1, h.2.2⟩

/-- C7: signing with a malformed (non-hex) identifier fails with
`MalformedInput` and returns the transaction unchanged; every successful
sign leaves the identifier alone and appends exactly one signature at the
end; two successful signs with two keys append their two signatures in call
order. -/
theorem C7_sign_appends (sigOf k1 k2 : List Nat → Option (List Nat)) (tx : Transaction) :
    (hexDecode tx.Id = none → Transaction.Sign sigOf tx = (tx, some .malformedInput))
    ∧ (∀ tx2, Transaction.Sign sigOf tx = (tx2, none) →
        tx2.Id = tx.Id ∧ ∃ s, tx2.Signatures = tx.Signatures ++ [s])
    ∧ (∀ h s1 s2, hexDecode tx.Id = some h → k1 h = some s1 → k2 h = some s2 →
        (Transaction.Sign k2 (Transaction.Sign k1 tx).1).1.Signatures
          = tx.Signatures ++ [hexEncode s1, hexEncode s2]) := by
  refine ⟨?_, ?_, ?_⟩
  · intro h
    unfold Transaction.Sign
    rw [h]
  · intro tx2 h2
    cases hdec : hexDecode tx.Id with
    | none =>
      simp only [Transaction.Sign, hdec] at h2
      exact absurd (congrArg Prod.snd h2) (by simp)
    | some hash =>
      cases hs : sigOf hash with
      | none =>
        simp only [Transaction.Sign, hdec, hs] at h2
        exact absurd (congrArg Prod.snd h2) (by simp)
      | some sig =>
        simp only [Transaction.Sign, hdec, hs] at h2
        have htx2 : tx2 = { tx with Signatures := tx.Signatures ++ [hexEncode sig] } := by
          have := congrArg Prod.fst h2
          simpa using this.symm
        rw [htx2]
        exact ⟨rfl, hexEncode sig, rfl⟩
  · intro h s1 s2 hdec h1 h2
    have hfirst : Transaction.Sign k1 tx
        = ({ tx with Signatures := tx.Signatures ++ [hexEncode s1] }, none) := by
      simp only [Transaction.Sign, hdec, h1]
    have hsecond : Transaction.Sign k2 { tx with Signatures := tx.Signatures ++ [hexEncode s1] }
        = ({ tx with Signatures := tx.Signatures ++ [hexEncode s1] ++ [hexEncode s2] }, none) := by
      simp only [Transaction.Sign, hdec, h2]
    rw [hfirst]
    show (Transaction.Sign k2 { tx with Signatures := tx.Signatures ++ [hexEncode s1] }).1.Signatures = _
    rw [hsecond]
    show tx.Signatures ++ [hexEncode s1] ++ [hexEncode s2] = _
    rw [List.append_assoc]
    rfl

/-- C7 witness: a malformed identifier rejects and leaves the signatures
empty; two successful signs on a well-formed identifier append both
signatures in order. -/
theorem C7_witness :
    Transaction.Sign (fun _ => some [1]) ⟨[103], []⟩ = (⟨[103], []⟩, some .malformedInput)
    ∧ (Transaction.Sign (fun _ => some [2])
        (Transaction.Sign (fun _ => some [1]) ⟨[97, 98], []⟩).1).1.Signatures
        = ([] : List (List Nat)) ++ [hexEncode [1], hexEncode [2]] := by
  constructor
  · exact (C7_sign_appends (fun _ => some [1]) (fun _ => some [1]) (fun _ => some [2])
      ⟨[103], []⟩).1 (by decide)
  · exact (C7_sign_appends (fun _ => some [1]) (fun _ => some [1]) (fun _ => some [2])
      ⟨[97, 98], []⟩).2.2 [171] [1] [2] (by decide) rfl rfl

/-- C8: `Signature` is the function name followed by the ordered input type
tags in parentheses, comma-separated with no spaces (`joinTags` renders the
spec's wording); in particular `transfer` with inputs `[address, uint256]`
yields exactly "transfer(address,uint256)".  The definition is a total pure
function. -/
theorem C8_signature :
    (∀ f : Function, f.Signature = f.Name ++ "(" ++ joinTags (f.Inputs.map fun v => v.type) ++ ")")
    ∧ (⟨"transfer", "", [⟨"", "address", false⟩, ⟨"", "uint256", false⟩], []⟩ : Function).Signature
      = "transfer(address,uint256)" := by
  constructor
  · intro f
    unfold Function.Signature
    cases hi : f.Inputs with
    | nil => rfl
    | cons v rest =>
      show f.Name ++ "(" ++ rest.foldl (fun acc w => acc ++ "," ++ w.type) v.type ++ ")" = _
      rw [foldl_commaTail rest v.type, List.map_cons, joinTags_cons]
  · decide

/-- C9: a big-integer argument whose magnitude fits in 32 bytes encodes to
exactly 32 bytes: `32 - len(magnitude)` fill bytes - 0xff when negative,
0x00 otherwise - followed by the big-endian magnitude (sign-fill plus
magnitude, not two's complement). -/
theorem C9_bigint_sign_fill (f : Function) (v : Int) (h : (magBytes v).length ≤ 32) :
    f.Encode [.bigInt v]
      = some (List.replicate (32 - (magBytes v).length) (if v < 0 then 0xff else 0x00)
          ++ magBytes v)
    ∧ (List.replicate (32 - (magBytes v).length) (if v < 0 then 0xff else 0x00)
        ++ magBytes v).length = 32 := by
  constructor
  · show encodeArgs [.bigInt v] = _
    apply encodeArgs_single
    simp only [encodeArg]
    rw [if_pos h]
  · rw [List.length_append, List.length_replicate]
    omega

/-- C9 witness: the negative value -5 has a one-byte magnitude and encodes
as 31 bytes of 0xff followed by 0x05. -/
theorem C9_witness :
    (magBytes (-5 : Int)).length ≤ 32
    ∧ (⟨"", "", [], []⟩ : Function).Encode [.bigInt (-5)]
      = some (List.replicate (32 - (magBytes (-5 : Int)).length)
          (if (-5 : Int) < 0 then 0xff else 0x00) ++ magBytes (-5 : Int)) := by
  have hm : magBytes (-5 : Int) = [5] := by
    unfold magBytes
    have h5 : ((-5 : Int)).natAbs = 5 := rfl
    rw [h5]
    exact natToDigits_of_lt 256 5 (by omega) (by omega) (by omega)
  have h : (magBytes (-5 : Int)).length ≤ 32 := by
    rw [hm]
    decide
  exact ⟨h, (C9_bigint_sign_fill ⟨"", "", [], []⟩ (-5) h).1⟩

/-- C10: a big-integer argument whose magnitude needs more than 32 bytes
makes `Function.Encode` abort with a runtime fault (`none` models the
negative-length slice panic in `leftPad`) wherever it occurs in the
argument list - no byte string and no error value is returned. -/
theorem C10_oversized_bigint_faults (pre post : List Arg) (v : Int)
    (h : 32 < (magBytes v).length) :
    encodeArgs (pre ++ .bigInt v :: post) = none := by
  apply encodeArgs_append_none
  simp only [encodeArg]
  rw [if_neg (by omega)]

/-- C10 witness: `2 ^ 256` needs 33 magnitude bytes and makes the encoder
fault. -/
theorem C10_witness :
    32 < (magBytes (2 ^ 256 : Int)).length
    ∧ encodeArgs [Arg.bigInt (2 ^ 256)] = none := by
  have habs : ((2 : Int) ^ 256).natAbs = 2 ^ 256 := by
    rw [Int.natAbs_pow]
    norm_num
  have h : 32 < (magBytes (2 ^ 256 : Int)).length := by
    by_contra hle
    push_neg at hle
    unfold magBytes at hle
    rw [habs] at hle
    have hlt := lt_pow_length_natToDigits 256 (by omega) (2 ^ 256)
    have hle2 : (256 : Nat) ^ (natToDigits 256 (2 ^ 256)).length ≤ 256 ^ 32 :=
      Nat.pow_le_pow_right (by omega) hle
    have h32 : (256 : Nat) ^ 32 = 2 ^ 256 := by norm_num
    omega
  exact ⟨h, C10_oversized_bigint_faults [] [] _ h⟩

end GoTron
